import Mathlib

set_option maxRecDepth 8000

/-!
A shallow embedding of the LangTrans autoregressive translation engine
(src/model/inference.rs, src/model/prompt.rs, src/model/language.rs).

The tokenizer and the model forward pass are external collaborators of the
repository (the `tokenizers` and `candle` crates); they are embedded as
oracles supplied to `translate`.  Everything the repository itself does —
prompt construction, the prefill pass, the greedy decode loop with its
stop-token check and step cap, position bookkeeping, KV-cache clearing,
lock scoping and error propagation — is translated from the source.
Machine floats (logit values) are modelled as integers: only their linear
order matters to greedy sampling.  The run is instrumented with a trace of
lock / cache / forward events so that lifecycle claims can be stated.
-/

namespace LangTrans

/-- Supported languages (src/model/language.rs, `Language`). -/
inductive Language where
  | En | Es | Fr | De | Pt | Ja | Ko | Zh | Ar | Ru | Hi
  deriving DecidableEq, Repr

/-- Display names used inside prompts (src/model/language.rs, `display_name`). -/
def Language.display_name : Language → String
  | .En => "English"
  | .Es => "Spanish"
  | .Fr => "French"
  | .De => "German"
  | .Pt => "Portuguese"
  | .Ja => "Japanese"
  | .Ko => "Korean"
  | .Zh => "Chinese"
  | .Ar => "Arabic"
  | .Ru => "Russian"
  | .Hi => "Hindi"

/-- Qwen2.5 ChatML translation prompt (src/model/prompt.rs,
`build_translation_prompt`).  The Rust `format!` string with its
line-continuation backslashes flattens to exactly this concatenation. -/
def build_translation_prompt (fromLang toLang : Language) (text : String) : String :=
  "<|im_start|>system\nYou are a professional translator.<|im_end|>\n<|im_start|>user\nTranslate the following text from "
    ++ fromLang.display_name
    ++ " to "
    ++ toLang.display_name
    ++ ". Provide only the translation without any explanation.\n\n"
    ++ text
    ++ "<|im_end|>\n<|im_start|>assistant\n"

/-- Step cap of the decode loop (src/model/inference.rs, `MAX_NEW_TOKENS`). -/
def MAX_NEW_TOKENS : Nat := 128

/-- Errors surfaced by `translate` (the `anyhow` wrappers in
src/model/inference.rs: "Tokenization failed", model-execution errors
propagated by `?`, "Decoding failed"). -/
inductive Err where
  | tokenization (msg : String)
  | modelExec (msg : String)
  | decoding (msg : String)
  deriving DecidableEq, Repr

/-- First-max argmax over a row of logits, exactly as candle's CPU
`Tensor::argmax` folds over the values: a later value replaces the current
best only when strictly greater, so the lowest index among maximal values
wins.  `best` and `bestIdx` are the running maximum and its index, `i` the
index of the head of the remaining list. -/
def argmaxAux : Int → Nat → Nat → List Int → Nat
  | _, bestIdx, _, [] => bestIdx
  | best, bestIdx, i, v :: rest =>
    if best < v then argmaxAux v i (i + 1) rest else argmaxAux best bestIdx (i + 1) rest

/-- Argmax over a vector; empty vectors are a backend error (`none`). -/
def argmax : List Int → Option Nat
  | [] => none
  | v :: rest => some (argmaxAux v 0 1 rest)

/-- Greedy sampling (src/model/inference.rs, `sample_token`): take the
logits row of the final sequence position (`logits.i((.., seq_len - 1, ..))`
after the batch squeeze; here the last element of the position-indexed
list) and return its argmax.  Shape errors map to model-execution errors,
as candle's tensor ops do. -/
def sample_token (logits : List (List Int)) : Except Err Nat :=
  match logits.getLast? with
  | none => .error (.modelExec "cannot index an empty sequence dimension")
  | some row =>
    match argmax row with
    | none => .error (.modelExec "argmax over an empty vocabulary dimension")
    | some t => .ok t

/-- External model-execution capability (candle's Qwen2
`ModelForCausalLM`), state-passing form: `forward` takes the input token
ids, the absolute start position and the current KV cache and returns
per-position logit rows plus the grown cache; `clearKvCache` is
`Model::clear_kv_cache`.  `C` is the cache representation. -/
structure ModelOracle (C : Type) where
  forward : List Nat → Nat → C → Except String (List (List Int) × C)
  clearKvCache : C → C

/-- External tokenizer (the `tokenizers` crate): `encode text addSpecial`
and `decode ids skipSpecial`. -/
structure TokenizerOracle where
  encode : String → Bool → Except String (List Nat)
  decode : List Nat → Bool → Except String String

/-- Observable events of one `translate` call against the shared engine:
acquiring and releasing the model mutex, clearing the KV cache, and each
model invocation (`modelForward nTokens startPos`). -/
inductive Event where
  | lockAcquire
  | clearCache
  | modelForward (nTokens : Nat) (pos : Nat)
  | lockRelease
  deriving DecidableEq, Repr

/-- Outcome of the decode loop: tokens generated (in order), the position
argument of each decode-step forward call, the forward events, the final
cache, and the error that aborted the loop, if any. -/
structure DecodeOut (C : Type) where
  generated : List Nat
  posTrace : List Nat
  events : List Event
  cache : C
  err : Option Err

/-- The decode loop of `InferenceEngine::translate` (src/model/inference.rs,
`for _step in 0..MAX_NEW_TOKENS`), fuel-indexed.  Each iteration first
checks the pending token against the stop set and breaks; otherwise it
appends the token to the output, invokes the model on exactly that one
token at the current position, samples the next token from the returned
logits, and increments the position.  A forward or sampling failure aborts
the loop with that error. -/
def decodeLoop (M : ModelOracle C) (eos : List Nat) :
    Nat → Nat → Nat → C → DecodeOut C
  | 0, _, _, cache => ⟨[], [], [], cache, none⟩
  | fuel + 1, nextToken, pos, cache =>
    if nextToken ∈ eos then ⟨[], [], [], cache, none⟩
    else
      match M.forward [nextToken] pos cache with
      | .error e => ⟨[nextToken], [pos], [.modelForward 1 pos], cache, some (.modelExec e)⟩
      | .ok (logits, cache') =>
        match sample_token logits with
        | .error e => ⟨[nextToken], [pos], [.modelForward 1 pos], cache', some e⟩
        | .ok t' =>
          let rest := decodeLoop M eos fuel t' (pos + 1) cache'
          ⟨nextToken :: rest.generated, pos :: rest.posTrace,
            .modelForward 1 pos :: rest.events, rest.cache, rest.err⟩

/-- Instrumented record of one whole `translate` call: the returned value,
the generated token ids (ghost — never part of an error outcome), the
decode-step positions, the event trace, and the engine's model cache as it
stands when the call returns (the cache lives inside the mutex-guarded
`Model` and survives the call). -/
structure RunResult (C : Type) where
  outcome : Except Err String
  generated : List Nat
  decodePositions : List Nat
  events : List Event
  cacheFinal : C

/-- Whitespace trimming of both ends (Rust `str::trim`, modelled on the
character list; Lean's `String.trim` is built on kernel-irreducible
auxiliaries, so the same function is written out on `String.data`). -/
def trimString (s : String) : String :=
  ⟨((s.data.dropWhile Char.isWhitespace).reverse.dropWhile Char.isWhitespace).reverse⟩

/-- Tail of `translate` after the decode loop (src/model/inference.rs,
lines 280-288): if the loop aborted, propagate its error unchanged;
otherwise detokenize the generated tokens (skipping special tokens) and
return the trimmed text, wrapping a detokenization failure as a decoding
error.  `promptLen` is the prompt length, used only for the event trace of
the prefill call. -/
def finishRun (T : TokenizerOracle) (d : DecodeOut C) (promptLen : Nat) : RunResult C :=
  let evs := Event.lockAcquire :: Event.clearCache ::
    Event.modelForward promptLen 0 :: (d.events ++ [Event.lockRelease])
  match d.err with
  | some e => ⟨.error e, d.generated, d.posTrace, evs, d.cache⟩
  | none =>
    match T.decode d.generated true with
    | .error e => ⟨.error (.decoding e), d.generated, d.posTrace, evs, d.cache⟩
    | .ok s => ⟨.ok (trimString s), d.generated, d.posTrace, evs, d.cache⟩

/-- The mutex-guarded section of `translate`: clear the KV cache, run the
prefill forward over the whole prompt at position 0, sample the first
predicted token, run the decode loop starting at position `input_ids.length`,
then finish with detokenization.  The lock-release event closes every trace
because the Rust `MutexGuard` drops on every exit path of the scope, early
error returns included. -/
def runLocked (M : ModelOracle C) (T : TokenizerOracle) (eos : List Nat)
    (c₀ : C) (input_ids : List Nat) : RunResult C :=
  let c₁ := M.clearKvCache c₀
  match M.forward input_ids 0 c₁ with
  | .error e =>
    ⟨.error (.modelExec e), [], [],
      [.lockAcquire, .clearCache, .modelForward input_ids.length 0, .lockRelease], c₁⟩
  | .ok (logits, c₂) =>
    match sample_token logits with
    | .error e =>
      ⟨.error e, [], [],
        [.lockAcquire, .clearCache, .modelForward input_ids.length 0, .lockRelease], c₂⟩
    | .ok t0 =>
      finishRun T (decodeLoop M eos MAX_NEW_TOKENS t0 input_ids.length c₂) input_ids.length

/-- One whole `InferenceEngine::translate` call (src/model/inference.rs):
build the prompt, tokenize it (`add_special_tokens = false`), then run the
mutex-guarded prefill/decode section.  A tokenization failure returns
before the lock is ever taken, so its trace is empty and the engine cache
is untouched. -/
def translateRun (M : ModelOracle C) (T : TokenizerOracle) (eos : List Nat)
    (c₀ : C) (fromLang toLang : Language) (text : String) : RunResult C :=
  match T.encode (build_translation_prompt fromLang toLang text) false with
  | .error e => ⟨.error (.tokenization e), [], [], [], c₀⟩
  | .ok input_ids => runLocked M T eos c₀ input_ids

/-- The value `translate` returns to its caller. -/
def translate (M : ModelOracle C) (T : TokenizerOracle) (eos : List Nat)
    (c₀ : C) (fromLang toLang : Language) (text : String) : Except Err String :=
  (translateRun M T eos c₀ fromLang toLang text).outcome

/-! ### A stream-shaped model oracle

A model whose output token sequence is an arbitrary stream `f : Nat → Nat`:
its `n`-th invocation returns a one-hot logits row peaking at `f n`, so the
engine's own greedy sampler recovers exactly `f n`.  The cache is the
number of invocations performed so far; clearing resets it to `0`. -/

/-- Logits row whose unique maximum sits at index `t`. -/
def oneHot (t : Nat) : List Int := List.replicate t 0 ++ [1]

/-- Model oracle emitting the token stream `f`. -/
def streamModel (f : Nat → Nat) : ModelOracle Nat where
  forward := fun _ _ n => .ok ([oneHot (f n)], n + 1)
  clearKvCache := fun _ => 0

/-- Number of decode-loop iterations the engine performs on stream `f`
starting at emission index `n` with `fuel` steps of budget left:
it stops early at the first emission lying in `eos`. -/
def steps (f : Nat → Nat) (eos : List Nat) : Nat → Nat → Nat
  | _, 0 => 0
  | n, fuel + 1 => if f n ∈ eos then 0 else steps f eos (n + 1) fuel + 1

theorem argmaxAux_zeros (k : Nat) : ∀ idx i : Nat,
    argmaxAux 0 idx i (List.replicate k 0 ++ [1]) = i + k := by
  induction k with
  | zero =>
    intro idx i
    simp [argmaxAux]
  | succ k ih =>
    intro idx i
    simp only [List.replicate_succ, List.cons_append, argmaxAux, lt_self_iff_false, if_false,
      List.append_eq]
    rw [ih idx (i + 1)]
    omega

theorem argmax_oneHot (t : Nat) : argmax (oneHot t) = some t := by
  cases t with
  | zero => rfl
  | succ t =>
    simp only [oneHot, List.replicate_succ, List.cons_append, argmax, argmaxAux,
      lt_self_iff_false, if_false, List.append_eq]
    rw [argmaxAux_zeros t 0 1]
    rw [Nat.add_comm]

theorem sample_token_oneHot (t : Nat) : sample_token [oneHot t] = .ok t := by
  simp [sample_token, argmax_oneHot t]

theorem steps_eq_of_first_stop (f : Nat → Nat) (eos : List Nat) :
    ∀ (k n fuel : Nat), k ≤ fuel → f (n + k) ∈ eos →
      (∀ j, j < k → f (n + j) ∉ eos) → steps f eos n fuel = k := by
  intro k
  induction k with
  | zero =>
    intro n fuel _ hstop _
    cases fuel with
    | zero => rfl
    | succ fuel => simp only [steps]; simp at hstop; simp [hstop]
  | succ k ih =>
    intro n fuel hk hstop hmin
    cases fuel with
    | zero => omega
    | succ fuel =>
      have h0 : f n ∉ eos := by
        have := hmin 0 (Nat.succ_pos k)
        simpa using this
      simp only [steps, h0, if_false]
      have : steps f eos (n + 1) fuel = k := by
        apply ih (n + 1) fuel (by omega)
        · have : n + 1 + k = n + (k + 1) := by omega
          rw [this]; exact hstop
        · intro j hj
          have : n + 1 + j = n + (j + 1) := by omega
          rw [this]; exact hmin (j + 1) (by omega)
      omega

theorem steps_eq_fuel_of_no_stop (f : Nat → Nat) (eos : List Nat) :
    ∀ (fuel n : Nat), (∀ j, j < fuel → f (n + j) ∉ eos) → steps f eos n fuel = fuel := by
  intro fuel
  induction fuel with
  | zero => intro n _; rfl
  | succ fuel ih =>
    intro n hno
    have h0 : f n ∉ eos := by simpa using hno 0 (Nat.succ_pos fuel)
    simp only [steps, h0, if_false]
    have : steps f eos (n + 1) fuel = fuel := by
      apply ih
      intro j hj
      have : n + 1 + j = n + (j + 1) := by omega
      rw [this]; exact hno (j + 1) (by omega)
    omega

/-- Characterization of the decode loop on a stream model: starting with
pending token `f n` and `n + 1` invocations already performed, the loop
runs for `steps f eos n fuel` iterations, generating exactly the emissions
`f n, f (n+1), …` before the first stop token, invoking the model at
consecutive positions. -/
theorem decodeLoop_stream (f : Nat → Nat) (eos : List Nat) :
    ∀ (fuel n pos : Nat),
      decodeLoop (streamModel f) eos fuel (f n) pos (n + 1) =
        ⟨(List.range' n (steps f eos n fuel)).map f,
         List.range' pos (steps f eos n fuel),
         (List.range' pos (steps f eos n fuel)).map (Event.modelForward 1),
         n + 1 + steps f eos n fuel,
         none⟩ := by
  intro fuel
  induction fuel with
  | zero => intro n pos; simp [decodeLoop, steps]
  | succ fuel ih =>
    intro n pos
    by_cases h : f n ∈ eos
    · simp [decodeLoop, steps, h]
    · have hforward : (streamModel f).forward [f n] pos (n + 1) =
        .ok ([oneHot (f (n + 1))], n + 1 + 1) := rfl
      simp only [decodeLoop, h, if_false, hforward, sample_token_oneHot, steps]
      rw [ih (n + 1) (pos + 1)]
      simp only [List.range'_succ, List.map_cons, DecodeOut.mk.injEq, true_and, and_true]
      omega

/-- Characterization of a whole successful `translate` run on a stream
model: the outcome is the trimmed detokenization of the emissions before
the first stop token (capped at `MAX_NEW_TOKENS`). -/
theorem translateRun_stream (f : Nat → Nat) (T : TokenizerOracle) (eos : List Nat)
    (c₀ : Nat) (fl tl : Language) (x : String) (ids : List Nat) (s : String)
    (henc : T.encode (build_translation_prompt fl tl x) false = .ok ids)
    (hdec : T.decode ((List.range' 0 (steps f eos 0 MAX_NEW_TOKENS)).map f) true = .ok s) :
    translateRun (streamModel f) T eos c₀ fl tl x =
      ⟨.ok (trimString s),
       (List.range' 0 (steps f eos 0 MAX_NEW_TOKENS)).map f,
       List.range' ids.length (steps f eos 0 MAX_NEW_TOKENS),
       Event.lockAcquire :: Event.clearCache :: Event.modelForward ids.length 0 ::
         ((List.range' ids.length (steps f eos 0 MAX_NEW_TOKENS)).map (Event.modelForward 1) ++
           [Event.lockRelease]),
       1 + steps f eos 0 MAX_NEW_TOKENS⟩ := by
  have hclear : (streamModel f).clearKvCache c₀ = 0 := rfl
  have hforward : (streamModel f).forward ids 0 0 = .ok ([oneHot (f 0)], 1) := rfl
  have hloop := decodeLoop_stream f eos MAX_NEW_TOKENS 0 ids.length
  simp only [translateRun, henc, runLocked, hclear, hforward, sample_token_oneHot]
  rw [hloop]
  simp only [finishRun, hdec]

/-! ### General anatomy of a run, for an arbitrary model oracle -/

/-- Model-invocation events of a trace. -/
def isForward : Event → Bool
  | .modelForward _ _ => true
  | _ => false

theorem sample_token_err (logits : List (List Int)) (e : Err)
    (h : sample_token logits = .error e) : ∃ m, e = Err.modelExec m := by
  unfold sample_token at h
  split at h
  · exact ⟨_, ((Except.error.injEq .. ).mp h).symm⟩
  · split at h
    · exact ⟨_, ((Except.error.injEq .. ).mp h).symm⟩
    · cases h

/-- Structural invariant of the decode loop: the positions passed to the
decode-step forward calls are exactly `pos, pos+1, …` — one per generated
token, in order; the events are exactly those forward calls; and the loop
can only abort with a model-execution error. -/
theorem decodeLoop_spec (M : ModelOracle C) (eos : List Nat) :
    ∀ (fuel t pos : Nat) (c : C),
      (decodeLoop M eos fuel t pos c).posTrace =
        List.range' pos (decodeLoop M eos fuel t pos c).generated.length ∧
      (decodeLoop M eos fuel t pos c).events =
        ((decodeLoop M eos fuel t pos c).posTrace).map (Event.modelForward 1) ∧
      (∀ e, (decodeLoop M eos fuel t pos c).err = some e → ∃ m, e = Err.modelExec m) := by
  intro fuel
  induction fuel with
  | zero => intro t pos c; simp [decodeLoop]
  | succ fuel ih =>
    intro t pos c
    by_cases h : t ∈ eos
    · simp [decodeLoop, h]
    · simp only [decodeLoop, h, if_false]
      split
      · refine ⟨by simp [List.range'_succ], by simp, ?_⟩
        intro e' he'
        simp only [Option.some.injEq] at he'
        exact ⟨_, he'.symm⟩
      · split
        · rename_i hs
          refine ⟨by simp [List.range'_succ], by simp, ?_⟩
          intro e' he'
          simp only [Option.some.injEq] at he'
          exact he' ▸ sample_token_err _ _ hs
        · rename_i logits cache' heq x t' hs
          obtain ⟨h1, h2, h3⟩ := ih t' (pos + 1) cache'
          refine ⟨?_, ?_, h3⟩
          · simp only [List.length_cons, List.range'_succ, h1]
          · simp only [h2, List.map_cons]

theorem finishRun_generated (T : TokenizerOracle) (d : DecodeOut C) (n : Nat) :
    (finishRun T d n).generated = d.generated := by
  unfold finishRun
  split
  · rfl
  · split <;> rfl

theorem finishRun_decodePositions (T : TokenizerOracle) (d : DecodeOut C) (n : Nat) :
    (finishRun T d n).decodePositions = d.posTrace := by
  unfold finishRun
  split
  · rfl
  · split <;> rfl

theorem finishRun_events (T : TokenizerOracle) (d : DecodeOut C) (n : Nat) :
    (finishRun T d n).events =
      Event.lockAcquire :: Event.clearCache ::
        Event.modelForward n 0 :: (d.events ++ [Event.lockRelease]) := by
  unfold finishRun
  split
  · rfl
  · split <;> rfl

theorem finishRun_cacheFinal (T : TokenizerOracle) (d : DecodeOut C) (n : Nat) :
    (finishRun T d n).cacheFinal = d.cache := by
  unfold finishRun
  split
  · rfl
  · split <;> rfl

/-- Only a detokenization failure of exactly the generated tokens can
surface as a decoding error. -/
theorem finishRun_outcome_decoding (T : TokenizerOracle) (d : DecodeOut C) (n : Nat)
    (hd : ∀ e, d.err = some e → ∃ m, e = Err.modelExec m) (msg : String)
    (h : (finishRun T d n).outcome = .error (.decoding msg)) :
    T.decode d.generated true = .error msg := by
  unfold finishRun at h
  revert h
  split
  · intro h
    simp only at h
    next e heq =>
      obtain ⟨m, hm⟩ := hd e heq
      simp [hm] at h
  · split
    · intro h
      simp only [Except.error.injEq, Err.decoding.injEq] at h
      next e heq => rw [heq, h]
    · intro h
      simp at h

/-- Claim C4: for every run producing N generated tokens, the position
argument of the decode-loop forward calls takes exactly the values
promptLength, promptLength+1, …, promptLength+N-1 in order, with no skips
and no repeats, whatever the model oracle does and however the run ends. -/
theorem translateRun_positions (M : ModelOracle C) (T : TokenizerOracle) (eos : List Nat)
    (c₀ : C) (fl tl : Language) (x : String) (ids : List Nat)
    (henc : T.encode (build_translation_prompt fl tl x) false = .ok ids) :
    (translateRun M T eos c₀ fl tl x).decodePositions =
      List.range' ids.length (translateRun M T eos c₀ fl tl x).generated.length := by
  simp only [translateRun, henc, runLocked]
  split
  · simp
  · split
    · simp
    · rename_i logits cache' heq xx t' hs
      rw [finishRun_decodePositions, finishRun_generated]
      exact (decodeLoop_spec M eos MAX_NEW_TOKENS t' ids.length cache').1

/-- Once tokenization succeeded, the event trace of a run is a single
lock acquisition, then the cache clear, then only model invocations, then
a single lock release — on the success path and on every error path. -/
theorem translateRun_events_shape (M : ModelOracle C) (T : TokenizerOracle) (eos : List Nat)
    (c₀ : C) (fl tl : Language) (x : String) (ids : List Nat)
    (henc : T.encode (build_translation_prompt fl tl x) false = .ok ids) :
    ∃ fwds : List (Nat × Nat),
      (translateRun M T eos c₀ fl tl x).events =
        Event.lockAcquire :: Event.clearCache ::
          ((fwds.map fun p => Event.modelForward p.1 p.2) ++ [Event.lockRelease]) := by
  simp only [translateRun, henc, runLocked]
  split
  · exact ⟨[(ids.length, 0)], by simp⟩
  · split
    · exact ⟨[(ids.length, 0)], by simp⟩
    · rename_i logits cache' heq xx t' hs
      refine ⟨(ids.length, 0) ::
        ((decodeLoop M eos MAX_NEW_TOKENS t' ids.length cache').posTrace.map fun p => (1, p)), ?_⟩
      rw [finishRun_events]
      obtain ⟨h1, h2, h3⟩ := decodeLoop_spec M eos MAX_NEW_TOKENS t' ids.length cache'
      simp [h2, List.map_map, Function.comp]

/-- Once tokenization succeeded, the model invocations of a run are
exactly one prefill over the whole prompt at position 0 followed by one
single-token invocation per generated token at consecutive positions. -/
theorem translateRun_forward_calls (M : ModelOracle C) (T : TokenizerOracle) (eos : List Nat)
    (c₀ : C) (fl tl : Language) (x : String) (ids : List Nat)
    (henc : T.encode (build_translation_prompt fl tl x) false = .ok ids) :
    (translateRun M T eos c₀ fl tl x).events.filter isForward =
      Event.modelForward ids.length 0 ::
        (List.range' ids.length (translateRun M T eos c₀ fl tl x).generated.length).map
          (Event.modelForward 1) := by
  simp only [translateRun, henc, runLocked]
  split
  · simp [isForward]
  · split
    · simp [isForward]
    · rename_i logits cache' heq xx t' hs
      rw [finishRun_events, finishRun_generated]
      obtain ⟨h1, h2, h3⟩ := decodeLoop_spec M eos MAX_NEW_TOKENS t' ids.length cache'
      rw [h2, ← h1]
      simp only [List.filter_cons, List.filter_append, isForward, Bool.false_eq_true,
        if_false, List.filter_map, if_true, List.filter_nil, List.append_nil]
      have hall : List.filter (isForward ∘ Event.modelForward 1)
          (decodeLoop M eos MAX_NEW_TOKENS t' ids.length cache').posTrace =
          (decodeLoop M eos MAX_NEW_TOKENS t' ids.length cache').posTrace :=
        List.filter_eq_self.mpr (fun a _ => rfl)
      rw [hall]

/-- No model invocation is ever repeated within one run. -/
theorem translateRun_forward_nodup (M : ModelOracle C) (T : TokenizerOracle) (eos : List Nat)
    (c₀ : C) (fl tl : Language) (x : String) :
    ((translateRun M T eos c₀ fl tl x).events.filter isForward).Nodup := by
  cases henc : T.encode (build_translation_prompt fl tl x) false with
  | error e => simp [translateRun, henc]
  | ok ids =>
    rw [translateRun_forward_calls M T eos c₀ fl tl x ids henc]
    rw [List.nodup_cons]
    constructor
    · intro hmem
      obtain ⟨p, hp, heq⟩ := List.mem_map.mp hmem
      obtain ⟨h1, h0⟩ := (Event.modelForward.injEq .. ).mp heq
      have hge : ids.length ≤ p := (List.mem_range'_1.mp hp).1
      omega
    · refine List.Nodup.map ?_ (List.nodup_range' _ _ _ Nat.one_pos)
      intro a b hab
      exact ((Event.modelForward.injEq .. ).mp hab).2

/-- The guarded section depends on the incoming engine cache only through
`clear_kv_cache`; with candle's cache clearing (a constant function) the
whole run is independent of it. -/
theorem runLocked_clear_indep (M : ModelOracle C) (T : TokenizerOracle) (eos : List Nat)
    (c₁ c₂ : C) (ids : List Nat)
    (hclear : ∀ a b : C, M.clearKvCache a = M.clearKvCache b) :
    runLocked M T eos c₁ ids = runLocked M T eos c₂ ids := by
  unfold runLocked
  rw [hclear c₁ c₂]

/-- Everything a caller can observe from `translate` — the outcome, the
generated tokens, the decode positions and the event trace — is
independent of the cache state left behind by earlier requests. -/
theorem translateRun_cache_indep (M : ModelOracle C) (T : TokenizerOracle) (eos : List Nat)
    (c₁ c₂ : C) (fl tl : Language) (x : String)
    (hclear : ∀ a b : C, M.clearKvCache a = M.clearKvCache b) :
    (translateRun M T eos c₁ fl tl x).outcome = (translateRun M T eos c₂ fl tl x).outcome ∧
    (translateRun M T eos c₁ fl tl x).generated = (translateRun M T eos c₂ fl tl x).generated ∧
    (translateRun M T eos c₁ fl tl x).decodePositions =
      (translateRun M T eos c₂ fl tl x).decodePositions ∧
    (translateRun M T eos c₁ fl tl x).events = (translateRun M T eos c₂ fl tl x).events := by
  unfold translateRun
  split
  · exact ⟨rfl, rfl, rfl, rfl⟩
  · rename_i ids heq
    rw [runLocked_clear_indep M T eos c₁ c₂ ids hclear]
    exact ⟨rfl, rfl, rfl, rfl⟩

/-- The decode loop is a function of the model's forward behaviour alone. -/
theorem decodeLoop_congr (M₁ M₂ : ModelOracle C) (eos : List Nat)
    (hfwd : ∀ ts p c, M₁.forward ts p c = M₂.forward ts p c) :
    ∀ (fuel t pos : Nat) (c : C),
      decodeLoop M₁ eos fuel t pos c = decodeLoop M₂ eos fuel t pos c := by
  intro fuel
  induction fuel with
  | zero => intro t pos c; rfl
  | succ fuel ih =>
    intro t pos c
    simp only [decodeLoop, hfwd]
    split
    · rfl
    · split
      · rfl
      · split
        · rfl
        · rw [ih]

theorem finishRun_congr (T₁ T₂ : TokenizerOracle) (d : DecodeOut C) (n : Nat)
    (hdec : ∀ ts b, T₁.decode ts b = T₂.decode ts b) :
    finishRun T₁ d n = finishRun T₂ d n := by
  unfold finishRun
  simp only [hdec]

/-- A whole run is a function of the inputs and of the extensional
behaviour of the model and tokenizer oracles: no other source of
variation exists. -/
theorem translateRun_congr (M₁ M₂ : ModelOracle C) (T₁ T₂ : TokenizerOracle)
    (eos : List Nat) (c₀ : C) (fl tl : Language) (x : String)
    (hfwd : ∀ ts p c, M₁.forward ts p c = M₂.forward ts p c)
    (hclear : ∀ c, M₁.clearKvCache c = M₂.clearKvCache c)
    (hencEq : ∀ s b, T₁.encode s b = T₂.encode s b)
    (hdecEq : ∀ ts b, T₁.decode ts b = T₂.decode ts b) :
    translateRun M₁ T₁ eos c₀ fl tl x = translateRun M₂ T₂ eos c₀ fl tl x := by
  unfold translateRun
  rw [hencEq]
  split
  · rfl
  · unfold runLocked
    rw [hclear]
    simp only [hfwd]
    split
    · rfl
    · split
      · rfl
      · rw [decodeLoop_congr M₁ M₂ eos hfwd, finishRun_congr T₁ T₂ _ _ hdecEq]

/-! ### Interleaving of concurrent calls under the model mutex

The engine serializes calls with `std::sync::Mutex` (src/state.rs holds one
shared `InferenceEngine`; src/model/inference.rs line 244 locks it).  The
mutex itself is Rust runtime behaviour, modelled here: a schedule is an
interleaving of events of numbered calls, and it is legal when acquisition
happens only while the lock is free and release only by the holder. -/

/-- Events that are neither a lock acquisition nor a lock release. -/
def noLockEvents (l : List Event) : Prop :=
  ∀ e ∈ l, e ≠ Event.lockAcquire ∧ e ≠ Event.lockRelease

/-- Trace shape of one call that takes the lock once, works, and releases
it at the end — what `translateRun` produces whenever tokenization
succeeds. -/
def CallShape (t : List Event) : Prop :=
  ∃ mid, t = Event.lockAcquire :: (mid ++ [Event.lockRelease]) ∧ noLockEvents mid

/-- Trace shape of a call that currently holds the lock: the remaining
events up to and including its release. -/
def RunningShape (t : List Event) : Prop :=
  ∃ mid, t = mid ++ [Event.lockRelease] ∧ noLockEvents mid

/-- Events of call `i` within an interleaved schedule. -/
def projOf (i : Nat) : List (Nat × Event) → List Event
  | [] => []
  | (j, e) :: rest => if j = i then e :: projOf i rest else projOf i rest

/-- Mutex semantics (Rust `std::sync::Mutex`, modelled): `h` is the current
holder; acquisition succeeds only when the lock is free, release only by
the holder; other events do not touch the lock. -/
def mutexLegalFrom : Option Nat → List (Nat × Event) → Prop
  | _, [] => True
  | h, (i, e) :: rest =>
    match e with
    | .lockAcquire => h = none ∧ mutexLegalFrom (some i) rest
    | .lockRelease => h = some i ∧ mutexLegalFrom none rest
    | .clearCache => mutexLegalFrom h rest
    | .modelForward _ _ => mutexLegalFrom h rest

/-- Well-formedness of the residual schedule: the holder's remaining
events form a `RunningShape`, every other call's remaining events are
absent or a full `CallShape`. -/
def TracesWF (h : Option Nat) (sched : List (Nat × Event)) : Prop :=
  ∀ i, (h = some i → RunningShape (projOf i sched)) ∧
       (h ≠ some i → projOf i sched = [] ∨ CallShape (projOf i sched))

theorem projOf_cons_self (i : Nat) (e : Event) (rest : List (Nat × Event)) :
    projOf i ((i, e) :: rest) = e :: projOf i rest := by
  simp [projOf]

theorem projOf_cons_other (i j : Nat) (e : Event) (rest : List (Nat × Event))
    (hij : j ≠ i) : projOf i ((j, e) :: rest) = projOf i rest := by
  simp [projOf, hij]

theorem projOf_eq_nil_not_mem (i : Nat) :
    ∀ (l : List (Nat × Event)), projOf i l = [] → ∀ e, (i, e) ∉ l := by
  intro l
  induction l with
  | nil => intro _ e h; exact List.not_mem_nil _ h
  | cons a rest ih =>
    obtain ⟨j, ev⟩ := a
    intro hp e hmem
    by_cases hj : j = i
    · subst hj
      rw [projOf_cons_self] at hp
      cases hp
    · rw [projOf_cons_other i j ev rest hj] at hp
      rcases List.mem_cons.mp hmem with h | h
      · exact hj (congrArg Prod.fst h).symm
      · exact ih hp e h

/-- A call whose next event is neither acquire nor release must be the
current lock holder, and consuming that event preserves well-formedness. -/
theorem wf_step_free (h : Option Nat) (a : Nat) (e : Event) (rest : List (Nat × Event))
    (he1 : e ≠ Event.lockAcquire) (he2 : e ≠ Event.lockRelease)
    (hwf : TracesWF h ((a, e) :: rest)) : h = some a ∧ TracesWF h rest := by
  have hha : h = some a := by
    by_contra hne
    rcases (hwf a).2 hne with hnil | hcs
    · rw [projOf_cons_self] at hnil; cases hnil
    · obtain ⟨mid, hmid, _⟩ := hcs
      rw [projOf_cons_self] at hmid
      exact he1 ((List.cons.injEq .. ).mp hmid).1
  refine ⟨hha, fun k => ⟨?_, ?_⟩⟩
  · intro hk
    have hka : a = k := by
      rw [hha] at hk; exact Option.some.inj hk
    subst hka
    obtain ⟨mid, hmid, hnl⟩ := (hwf a).1 hha
    rw [projOf_cons_self] at hmid
    cases mid with
    | nil =>
      exact absurd ((List.cons.injEq .. ).mp hmid).1 he2
    | cons m mid' =>
      obtain ⟨hm, htail⟩ := (List.cons.injEq .. ).mp hmid
      exact ⟨mid', htail, fun ev hev => hnl ev (List.mem_cons_of_mem m hev)⟩
  · intro hk
    have hka : a ≠ k := by
      intro hc; subst hc; exact hk hha
    have := (hwf k).2 hk
    rwa [projOf_cons_other k a e rest hka] at this

/-- One legal step preserves well-formedness, with the holder updated. -/
theorem wf_step (h : Option Nat) (a : Nat) (e : Event) (rest : List (Nat × Event))
    (hleg : mutexLegalFrom h ((a, e) :: rest)) (hwf : TracesWF h ((a, e) :: rest)) :
    ∃ h', mutexLegalFrom h' rest ∧ TracesWF h' rest := by
  cases e with
  | lockAcquire =>
    obtain ⟨hnone, hleg'⟩ : h = none ∧ mutexLegalFrom (some a) rest := hleg
    refine ⟨some a, hleg', fun k => ⟨?_, ?_⟩⟩
    · intro hk
      have hka : a = k := Option.some.inj hk
      subst hka
      have hne : h ≠ some a := by rw [hnone]; intro hc; cases hc
      rcases (hwf a).2 hne with hnil | hcs
      · rw [projOf_cons_self] at hnil; cases hnil
      · obtain ⟨mid, hmid, hnl⟩ := hcs
        rw [projOf_cons_self] at hmid
        exact ⟨mid, ((List.cons.injEq .. ).mp hmid).2, hnl⟩
    · intro hk
      have hka : a ≠ k := by
        intro hc; subst hc; exact hk rfl
      have hne : h ≠ some k := by rw [hnone]; intro hc; cases hc
      have := (hwf k).2 hne
      rwa [projOf_cons_other k a Event.lockAcquire rest hka] at this
  | lockRelease =>
    obtain ⟨hh, hleg'⟩ : h = some a ∧ mutexLegalFrom none rest := hleg
    refine ⟨none, hleg', ?_⟩
    intro k
    refine ⟨fun hk => (nomatch hk), fun _ => ?_⟩
    by_cases hka : k = a
    · subst hka
      obtain ⟨mid, hmid, hnl⟩ := (hwf k).1 hh
      rw [projOf_cons_self] at hmid
      cases mid with
      | nil =>
        left
        exact ((List.cons.injEq .. ).mp hmid).2
      | cons m mid' =>
        obtain ⟨hm, _⟩ := (List.cons.injEq .. ).mp hmid
        exact absurd hm.symm (hnl m (List.mem_cons_self m mid')).2
    · have hne : h ≠ some k := by
        rw [hh]; intro hc; exact hka (Option.some.inj hc).symm
      have := (hwf k).2 hne
      rwa [projOf_cons_other k a Event.lockRelease rest (fun hc => hka hc.symm)] at this
  | clearCache =>
    have hleg' : mutexLegalFrom h rest := hleg
    obtain ⟨hha, hwf'⟩ := wf_step_free h a Event.clearCache rest
      (fun hc => nomatch hc) (fun hc => nomatch hc) hwf
    exact ⟨h, hleg', hwf'⟩
  | modelForward n p =>
    have hleg' : mutexLegalFrom h rest := hleg
    obtain ⟨hha, hwf'⟩ := wf_step_free h a (Event.modelForward n p) rest
      (fun hc => nomatch hc) (fun hc => nomatch hc) hwf
    exact ⟨h, hleg', hwf'⟩

/-- While a call holds the lock, the schedule is that call's own work up
to its release, after which the call never appears again (or the schedule
ends before the release). -/
theorem held_split (i : Nat) :
    ∀ (sched : List (Nat × Event)),
      mutexLegalFrom (some i) sched → TracesWF (some i) sched →
      (∀ p ∈ sched, p.1 = i) ∨
      ∃ pre post, sched = pre ++ (i, Event.lockRelease) :: post ∧
        (∀ p ∈ pre, p.1 = i) ∧ projOf i post = [] := by
  intro sched
  induction sched with
  | nil => intro _ _; exact Or.inl (fun p hp => absurd hp (List.not_mem_nil p))
  | cons a rest ih =>
    obtain ⟨j, e⟩ := a
    intro hleg hwf
    by_cases hj : j = i
    · subst hj
      cases e with
      | lockAcquire =>
        obtain ⟨hc, _⟩ : (some j : Option Nat) = none ∧ mutexLegalFrom (some j) rest := hleg
        cases hc
      | lockRelease =>
        obtain ⟨mid, hmid, hnl⟩ := (hwf j).1 rfl
        rw [projOf_cons_self] at hmid
        have hrest : projOf j rest = [] := by
          cases mid with
          | nil => exact ((List.cons.injEq .. ).mp hmid).2
          | cons m mid' =>
            exact absurd (((List.cons.injEq .. ).mp hmid).1).symm
              (hnl m (List.mem_cons_self m mid')).2
        exact Or.inr ⟨[], rest, rfl, fun p hp => absurd hp (List.not_mem_nil p), hrest⟩
      | clearCache =>
        have hleg' : mutexLegalFrom (some j) rest := hleg
        obtain ⟨_, hwf'⟩ := wf_step_free (some j) j Event.clearCache rest
          (fun hc => nomatch hc) (fun hc => nomatch hc) hwf
        rcases ih hleg' hwf' with hall | ⟨pre, post, hsp, hpre, hpost⟩
        · refine Or.inl ?_
          intro p hp
          rcases List.mem_cons.mp hp with h | h
          · rw [h]
          · exact hall p h
        · refine Or.inr ⟨(j, Event.clearCache) :: pre, post, by rw [hsp]; rfl, ?_, hpost⟩
          intro p hp
          rcases List.mem_cons.mp hp with h | h
          · rw [h]
          · exact hpre p h
      | modelForward n q =>
        have hleg' : mutexLegalFrom (some j) rest := hleg
        obtain ⟨_, hwf'⟩ := wf_step_free (some j) j (Event.modelForward n q) rest
          (fun hc => nomatch hc) (fun hc => nomatch hc) hwf
        rcases ih hleg' hwf' with hall | ⟨pre, post, hsp, hpre, hpost⟩
        · refine Or.inl ?_
          intro p hp
          rcases List.mem_cons.mp hp with h | h
          · rw [h]
          · exact hall p h
        · refine Or.inr ⟨(j, Event.modelForward n q) :: pre, post, by rw [hsp]; rfl, ?_, hpost⟩
          intro p hp
          rcases List.mem_cons.mp hp with h | h
          · rw [h]
          · exact hpre p h
    · exfalso
      have hne : (some i : Option Nat) ≠ some j := fun hc => hj (Option.some.inj hc).symm
      rcases (hwf j).2 hne with hnil | hcs
      · rw [projOf_cons_self] at hnil; cases hnil
      · obtain ⟨mid, hmid, _⟩ := hcs
        rw [projOf_cons_self] at hmid
        have he : e = Event.lockAcquire := ((List.cons.injEq .. ).mp hmid).1
        subst he
        obtain ⟨hc, _⟩ : (some i : Option Nat) = none ∧ mutexLegalFrom (some j) rest := hleg
        cases hc

/-- In any mutex-legal interleaving of well-formed call traces, the model
invocations of two different calls never interleave: whole calls
serialize, so at most one call is inside its prefill/decode section at any
time. -/
theorem mutex_serializes :
    ∀ (sched : List (Nat × Event)) (h : Option Nat),
      mutexLegalFrom h sched → TracesWF h sched →
      ∀ (k₁ k₂ k₃ i j n₁ p₁ n₂ p₂ n₃ p₃ : Nat),
        k₁ < k₂ → k₂ < k₃ →
        sched[k₁]? = some (i, Event.modelForward n₁ p₁) →
        sched[k₂]? = some (j, Event.modelForward n₂ p₂) →
        sched[k₃]? = some (i, Event.modelForward n₃ p₃) → i = j := by
  intro sched
  induction sched with
  | nil =>
    intro h _ _ k₁ k₂ k₃ i j n₁ p₁ n₂ p₂ n₃ p₃ _ _ hg1 _ _
    simp at hg1
  | cons a rest ih =>
    intro h hleg hwf k₁ k₂ k₃ i j n₁ p₁ n₂ p₂ n₃ p₃ h12 h23 hg1 hg2 hg3
    obtain ⟨b, e⟩ := a
    cases k₁ with
    | succ m₁ =>
      obtain ⟨h', hleg', hwf'⟩ := wf_step h b e rest hleg hwf
      cases k₂ with
      | zero => omega
      | succ m₂ =>
        cases k₃ with
        | zero => omega
        | succ m₃ =>
          rw [List.getElem?_cons_succ] at hg1 hg2 hg3
          exact ih h' hleg' hwf' m₁ m₂ m₃ i j n₁ p₁ n₂ p₂ n₃ p₃
            (by omega) (by omega) hg1 hg2 hg3
    | zero =>
      have heq : (b, e) = (i, Event.modelForward n₁ p₁) := by
        simpa using hg1
      obtain ⟨hb, he⟩ := (Prod.mk.injEq .. ).mp heq
      subst hb
      subst he
      obtain ⟨hh, hwf'⟩ := wf_step_free h b (Event.modelForward n₁ p₁) rest
        (fun hc => nomatch hc) (fun hc => nomatch hc) hwf
      subst hh
      have hleg' : mutexLegalFrom (some b) rest := hleg
      rcases held_split b rest hleg' hwf' with hall | ⟨pre, post, hsp, hpre, hpost⟩
      · cases k₂ with
        | zero => omega
        | succ m₂ =>
          rw [List.getElem?_cons_succ] at hg2
          exact (hall _ (List.getElem?_mem hg2)).symm
      · by_cases hij : b = j
        · exact hij
        · exfalso
          cases k₂ with
          | zero => omega
          | succ m₂ =>
            cases k₃ with
            | zero => omega
            | succ m₃ =>
              rw [List.getElem?_cons_succ] at hg2 hg3
              rw [hsp] at hg2 hg3
              rw [List.getElem?_append] at hg2 hg3
              have hm2 : ¬ m₂ < pre.length := by
                intro hlt
                rw [if_pos hlt] at hg2
                exact hij (hpre _ (List.getElem?_mem hg2)).symm
              rw [if_neg hm2] at hg2
              have hm2' : pre.length < m₂ := by
                rcases Nat.lt_or_ge pre.length m₂ with hlt | hge
                · exact hlt
                · exfalso
                  have hmeq : m₂ = pre.length := by omega
                  subst hmeq
                  simp only [Nat.sub_self, List.getElem?_cons_zero, Option.some.injEq] at hg2
                  exact (nomatch ((Prod.mk.injEq .. ).mp hg2).2)
              have hm3 : ¬ m₃ < pre.length := by omega
              rw [if_neg hm3] at hg3
              obtain ⟨d, hd⟩ : ∃ d, m₃ - pre.length = d + 1 :=
                ⟨m₃ - pre.length - 1, by omega⟩
              rw [hd, List.getElem?_cons_succ] at hg3
              exact projOf_eq_nil_not_mem b post hpost _ (List.getElem?_mem hg3)

/-! ### Greedy selection: argmax returns the first maximal index -/

/-- Specification of the argmax fold: either no element beats the running
best (and the running best index is returned), or the first element that
strictly exceeds the running best and is never strictly exceeded later is
returned, at offset `i`. -/
theorem argmaxAux_spec :
    ∀ (l : List Int) (best : Int) (bidx i : Nat),
      (argmaxAux best bidx i l = bidx ∧ ∀ j, j < l.length → l.getD j 0 ≤ best) ∨
      (∃ j, j < l.length ∧ argmaxAux best bidx i l = i + j ∧ best < l.getD j 0 ∧
        (∀ k, k < l.length → l.getD k 0 ≤ l.getD j 0) ∧
        (∀ k, k < j → l.getD k 0 < l.getD j 0)) := by
  intro l
  induction l with
  | nil =>
    intro best bidx i
    left
    exact ⟨rfl, fun j hj => absurd hj (by simp)⟩
  | cons v rest ih =>
    intro best bidx i
    by_cases hv : best < v
    · simp only [argmaxAux, hv, if_true]
      rcases ih v i (i + 1) with ⟨heq, hle⟩ | ⟨j, hj, heq, hlt, hmax, hfirst⟩
      · right
        refine ⟨0, by simp, by rw [heq]; omega, by simpa using hv, ?_, ?_⟩
        · intro k hk
          cases k with
          | zero => simp
          | succ k =>
            simp only [List.getD_cons_succ, List.getD_cons_zero]
            exact hle k (by simpa using hk)
        · intro k hk
          exact absurd hk (Nat.not_lt_zero k)
      · right
        refine ⟨j + 1, by simpa using hj, by rw [heq]; omega, ?_, ?_, ?_⟩
        · simpa using lt_trans hv hlt
        · intro k hk
          cases k with
          | zero => simpa using le_of_lt hlt
          | succ k =>
            simp only [List.getD_cons_succ]
            exact hmax k (by simpa using hk)
        · intro k hk
          cases k with
          | zero => simpa using hlt
          | succ k =>
            simp only [List.getD_cons_succ]
            exact hfirst k (by omega)
    · simp only [argmaxAux, hv, if_false]
      rcases ih best bidx (i + 1) with ⟨heq, hle⟩ | ⟨j, hj, heq, hlt, hmax, hfirst⟩
      · left
        refine ⟨heq, ?_⟩
        intro k hk
        cases k with
        | zero => simpa using le_of_not_lt hv
        | succ k =>
          simp only [List.getD_cons_succ]
          exact hle k (by simpa using hk)
      · right
        have hvj : v ≤ rest.getD j 0 := le_trans (le_of_not_lt hv) (le_of_lt hlt)
        refine ⟨j + 1, by simpa using hj, by rw [heq]; omega, ?_, ?_, ?_⟩
        · simpa using hlt
        · intro k hk
          cases k with
          | zero => simpa using hvj
          | succ k =>
            simp only [List.getD_cons_succ]
            exact hmax k (by simpa using hk)
        · intro k hk
          cases k with
          | zero => simpa using lt_of_le_of_lt (le_of_not_lt hv) hlt
          | succ k =>
            simp only [List.getD_cons_succ]
            exact hfirst k (by omega)

/-- Claim C3: the next-token selection of `sample_token` is deterministic
greedy arg-max over the logits row at the final position: the returned
index `t` holds a maximal logit, and every strictly smaller index holds a
strictly smaller logit, so among equal maximal values the lowest index is
returned (stable first-max tie-break). -/
theorem sample_token_spec (logits : List (List Int)) (row : List Int) (t : Nat)
    (hrow : logits.getLast? = some row) (hs : sample_token logits = .ok t) :
    t < row.length ∧
    (∀ j, j < row.length → row.getD j 0 ≤ row.getD t 0) ∧
    (∀ j, j < t → row.getD j 0 < row.getD t 0) := by
  unfold sample_token at hs
  simp only [hrow] at hs
  cases row with
  | nil => cases hs
  | cons v rest =>
    simp only [argmax, Option.some.injEq] at hs
    have ht : t = argmaxAux v 0 1 rest := by
      exact (Except.ok.injEq .. ).mp hs |>.symm
    rcases argmaxAux_spec rest v 0 1 with ⟨heq, hle⟩ | ⟨j, hj, heq, hlt, hmax, hfirst⟩
    · have ht0 : t = 0 := by rw [ht, heq]
      subst ht0
      refine ⟨by simp, ?_, ?_⟩
      · intro j hjl
        cases j with
        | zero => simp
        | succ j =>
          simp only [List.getD_cons_succ, List.getD_cons_zero]
          exact hle j (by simpa using hjl)
      · intro j hj
        exact absurd hj (Nat.not_lt_zero j)
    · have ht1 : t = j + 1 := by rw [ht, heq]; omega
      subst ht1
      refine ⟨by simpa using hj, ?_, ?_⟩
      · intro k hk
        cases k with
        | zero =>
          simp only [List.getD_cons_succ, List.getD_cons_zero]
          exact le_of_lt hlt
        | succ k =>
          simp only [List.getD_cons_succ]
          exact hmax k (by simpa using hk)
      · intro k hk
        cases k with
        | zero =>
          simp only [List.getD_cons_succ, List.getD_cons_zero]
          exact hlt
        | succ k =>
          simp only [List.getD_cons_succ]
          exact hfirst k (by omega)

/-! ### Concrete oracles used by witnesses and counterexamples -/

/-- Stream emitting 3, 3 and then the stop token 9. -/
def cxStream : Nat → Nat := fun n => if n = 2 then 9 else 3

/-- The same stream written differently (for the determinism witness). -/
def cxStream' : Nat → Nat := fun n => if n = 2 then 4 + 5 else 2 + 1

/-- Stream that never emits the stop token 2. -/
def noStopStream : Nat → Nat := fun _ => 5

/-- Stream whose very first prediction is the stop token 7. -/
def stopStream : Nat → Nat := fun _ => 7

/-- Tokenizer producing a two-token prompt and recognizing the two
generated tokens. -/
def cxTok : TokenizerOracle :=
  ⟨fun _ _ => .ok [5, 6], fun ts _ => .ok (if ts = [3, 3] then " hi " else "no")⟩

/-- The same tokenizer written differently (for the determinism witness). -/
def cxTok' : TokenizerOracle :=
  ⟨fun _ _ => .ok [5, 6], fun ts _ => .ok (if ts = [3, 3] then " hi " else "no")⟩

/-- Tokenizer whose decoder always produces the empty string. -/
def emptyTok : TokenizerOracle := ⟨fun _ _ => .ok [1], fun _ _ => .ok ""⟩

/-- Tokenizer whose decoder always produces a fixed non-empty string. -/
def outTok : TokenizerOracle := ⟨fun _ _ => .ok [1], fun _ _ => .ok "out"⟩

/-- Tokenizer whose encoder always fails. -/
def failTok : TokenizerOracle := ⟨fun _ _ => .error "boom", fun _ _ => .ok ""⟩

/-- Tokenizer that decodes the empty token list to the empty string. -/
def stopTok : TokenizerOracle :=
  ⟨fun _ _ => .ok [4], fun ts _ => .ok (if ts = [] then "" else "x")⟩

/-! ### Claim theorems -/

/-- Claim C1: for every model output stream containing a stop token among
the tokens the run emits, the string returned by `translate` is the
(trimmed) detokenization of exactly the tokens generated before the first
stop token — the stop token itself and everything after it are excluded. -/
theorem translate_stop_token_excluded (f : Nat → Nat) (T : TokenizerOracle)
    (eos : List Nat) (c₀ : Nat) (fl tl : Language) (x : String)
    (ids : List Nat) (k : Nat) (s : String)
    (henc : T.encode (build_translation_prompt fl tl x) false = .ok ids)
    (hk : k ≤ MAX_NEW_TOKENS) (hstop : f k ∈ eos)
    (hmin : ∀ j, j < k → f j ∉ eos)
    (hdec : T.decode ((List.range k).map f) true = .ok s) :
    translate (streamModel f) T eos c₀ fl tl x = .ok (trimString s) := by
  have hsteps : steps f eos 0 MAX_NEW_TOKENS = k :=
    steps_eq_of_first_stop f eos k 0 MAX_NEW_TOKENS hk (by simpa using hstop)
      (fun j hj => by simpa using hmin j hj)
  have hdec' : T.decode ((List.range' 0 (steps f eos 0 MAX_NEW_TOKENS)).map f) true = .ok s := by
    rw [hsteps, ← List.range_eq_range']
    exact hdec
  unfold translate
  rw [translateRun_stream f T eos c₀ fl tl x ids s henc hdec']

/-- Witness for C1: the stream 3, 3, 9 with stop set containing 9 returns the
detokenization of [3, 3] alone, trimmed. -/
theorem translate_stop_token_excluded_witness :
    translate (streamModel cxStream) cxTok [9] 0 Language.En Language.Ko "x" = .ok "hi" := by
  have h := translate_stop_token_excluded cxStream cxTok [9] 0 Language.En Language.Ko "x"
    [5, 6] 2 " hi " rfl (by decide) (by decide) (by decide) rfl
  rw [h]
  rfl

/-- Counterexample to C2 as stated: with a model that never emits a stop
token, generation does stop at the cap, but the returned string is EMPTY
here — all 128 generated tokens detokenize to the empty string — so the
promise of a non-empty truncated result fails. -/
theorem translate_step_cap_empty_output :
    translate (streamModel noStopStream) emptyTok [2] 0 Language.En Language.Ko "x" =
      .ok "" := by
  unfold translate
  rw [translateRun_stream noStopStream emptyTok [2] 0 Language.En Language.Ko "x" [1] ""
    rfl rfl]
  rfl

/-- Claim C2 (amended): for a model that never emits a stop token among
the first `MAX_NEW_TOKENS` emissions, the decode loop terminates after
exactly `MAX_NEW_TOKENS` steps, the generated sequence has length exactly
`MAX_NEW_TOKENS`, and `translate` returns the trimmed detokenization of
those tokens — which, contrary to the original claim, may be empty. -/
theorem translate_step_cap_truncates (f : Nat → Nat) (T : TokenizerOracle)
    (eos : List Nat) (c₀ : Nat) (fl tl : Language) (x : String) (ids : List Nat) (s : String)
    (henc : T.encode (build_translation_prompt fl tl x) false = .ok ids)
    (hnostop : ∀ i, i < MAX_NEW_TOKENS → f i ∉ eos)
    (hdec : T.decode ((List.range MAX_NEW_TOKENS).map f) true = .ok s) :
    (translateRun (streamModel f) T eos c₀ fl tl x).generated =
      (List.range MAX_NEW_TOKENS).map f ∧
    (translateRun (streamModel f) T eos c₀ fl tl x).generated.length = MAX_NEW_TOKENS ∧
    (translateRun (streamModel f) T eos c₀ fl tl x).decodePositions =
      List.range' ids.length MAX_NEW_TOKENS ∧
    (translateRun (streamModel f) T eos c₀ fl tl x).outcome = .ok (trimString s) := by
  have hsteps : steps f eos 0 MAX_NEW_TOKENS = MAX_NEW_TOKENS :=
    steps_eq_fuel_of_no_stop f eos MAX_NEW_TOKENS 0
      (fun j hj => by simpa using hnostop j hj)
  have hdec' : T.decode ((List.range' 0 (steps f eos 0 MAX_NEW_TOKENS)).map f) true = .ok s := by
    rw [hsteps, ← List.range_eq_range']
    exact hdec
  rw [translateRun_stream f T eos c₀ fl tl x ids s henc hdec']
  refine ⟨?_, ?_, ?_, rfl⟩
  · rw [hsteps, ← List.range_eq_range']
  · simp [hsteps]
  · rw [hsteps]

/-- Witness for the amended C2 at a concrete stop-free stream. -/
theorem translate_step_cap_truncates_witness :
    (translateRun (streamModel noStopStream) outTok [2] 0 Language.En Language.Ko "x").generated =
      (List.range MAX_NEW_TOKENS).map noStopStream ∧
    (translateRun (streamModel noStopStream) outTok [2] 0
        Language.En Language.Ko "x").generated.length = MAX_NEW_TOKENS ∧
    (translateRun (streamModel noStopStream) outTok [2] 0
        Language.En Language.Ko "x").decodePositions = List.range' 1 MAX_NEW_TOKENS ∧
    (translateRun (streamModel noStopStream) outTok [2] 0
        Language.En Language.Ko "x").outcome = .ok (trimString "out") :=
  translate_step_cap_truncates noStopStream outTok [2] 0 Language.En Language.Ko "x" [1] "out"
    rfl (fun i _ => by simp [noStopStream]) rfl

/-- Witness for C3: a tie between indices 1 and 2 (both holding the
maximal logit 3) resolves to the lower index 1. -/
theorem sample_token_spec_witness :
    1 < ([(1 : Int), 3, 3, 2] : List Int).length ∧
    (∀ j, j < ([(1 : Int), 3, 3, 2] : List Int).length →
      ([(1 : Int), 3, 3, 2] : List Int).getD j 0 ≤ ([(1 : Int), 3, 3, 2] : List Int).getD 1 0) ∧
    (∀ j, j < 1 →
      ([(1 : Int), 3, 3, 2] : List Int).getD j 0 < ([(1 : Int), 3, 3, 2] : List Int).getD 1 0) :=
  sample_token_spec [[1, 3, 3, 2]] [1, 3, 3, 2] 1 rfl rfl

/-- Witness for C4 at a concrete two-token prompt and three-emission run. -/
theorem translateRun_positions_witness :
    (translateRun (streamModel cxStream) cxTok [9] 0
        Language.En Language.Ko "x").decodePositions =
      List.range' 2 (translateRun (streamModel cxStream) cxTok [9] 0
        Language.En Language.Ko "x").generated.length :=
  translateRun_positions (streamModel cxStream) cxTok [9] 0 Language.En Language.Ko "x"
    [5, 6] rfl

/-- Claim C5: a failing run is atomic.  A tokenization failure aborts with
exactly the tokenizer's error before any model invocation or token
accumulation; within any run no model invocation is ever repeated (no
retry); and a decoding-error outcome carries exactly the detokenizer's
error on the generated-and-discarded tokens — an error outcome never
carries any partial text. -/
theorem translate_failure_atomic (M : ModelOracle C) (T : TokenizerOracle) (eos : List Nat)
    (c₀ : C) (fl tl : Language) (x : String) :
    (∀ e, T.encode (build_translation_prompt fl tl x) false = .error e →
        translateRun M T eos c₀ fl tl x =
          ⟨.error (.tokenization e), [], [], [], c₀⟩) ∧
    ((translateRun M T eos c₀ fl tl x).events.filter isForward).Nodup ∧
    (∀ msg, (translateRun M T eos c₀ fl tl x).outcome = .error (.decoding msg) →
        T.decode (translateRun M T eos c₀ fl tl x).generated true = .error msg) := by
  refine ⟨?_, translateRun_forward_nodup M T eos c₀ fl tl x, ?_⟩
  · intro e he
    simp only [translateRun, he]
  · intro msg
    simp only [translateRun]
    split
    · intro hmsg
      exact absurd ((Except.error.injEq .. ).mp hmsg) (fun hc => nomatch hc)
    · simp only [runLocked]
      split
      · intro hmsg
        exact absurd ((Except.error.injEq .. ).mp hmsg) (fun hc => nomatch hc)
      · split
        · rename_i e hs
          intro hmsg
          have he := (Except.error.injEq .. ).mp hmsg
          obtain ⟨m, hm⟩ := sample_token_err _ e hs
          rw [hm] at he
          exact (nomatch he)
        · rename_i logits cache' heq xx t' hs
          intro hmsg
          rw [finishRun_generated]
          exact finishRun_outcome_decoding T _ _
            ((decodeLoop_spec M eos MAX_NEW_TOKENS t' _ cache').2.2) msg hmsg

/-- Witness for C5: a tokenizer whose encoder fails makes the whole call
fail with that error, no model invocation and no partial result. -/
theorem translate_failure_atomic_witness :
    translateRun (streamModel noStopStream) failTok [2] 0 Language.En Language.Ko "x" =
      ⟨.error (.tokenization "boom"), [], [], [], 0⟩ :=
  (translate_failure_atomic (streamModel noStopStream) failTok [2] 0
    Language.En Language.Ko "x").1 "boom" rfl

/-- Claim C6: for fixed model weights and tokenizer, `translate` is a pure
function of (sourceLanguage, targetLanguage, text): two calls with
extensionally equal oracles and identical inputs return identical
results — token selection has no source of randomness. -/
theorem translate_deterministic (M₁ M₂ : ModelOracle C) (T₁ T₂ : TokenizerOracle)
    (eos : List Nat) (c₀ : C) (fl tl : Language) (x : String)
    (hfwd : ∀ ts p c, M₁.forward ts p c = M₂.forward ts p c)
    (hclear : ∀ c, M₁.clearKvCache c = M₂.clearKvCache c)
    (hencEq : ∀ s b, T₁.encode s b = T₂.encode s b)
    (hdecEq : ∀ ts b, T₁.decode ts b = T₂.decode ts b) :
    translate M₁ T₁ eos c₀ fl tl x = translate M₂ T₂ eos c₀ fl tl x := by
  unfold translate
  rw [translateRun_congr M₁ M₂ T₁ T₂ eos c₀ fl tl x hfwd hclear hencEq hdecEq]

/-- Witness for C6: two syntactically different but extensionally equal
model/tokenizer pairs produce the same result. -/
theorem translate_deterministic_witness :
    translate (streamModel cxStream) cxTok [9] 0 Language.En Language.Ko "x" =
      translate (streamModel cxStream') cxTok' [9] 0 Language.En Language.Ko "x" :=
  translate_deterministic (streamModel cxStream) (streamModel cxStream') cxTok cxTok' [9] 0
    Language.En Language.Ko "x" (fun _ _ _ => rfl) (fun _ => rfl) (fun _ _ => rfl)
    (fun _ _ => rfl)

/-- Claim C7: the prompt builder is a pure total deterministic function
(a Lean function by construction) that embeds both language display names
and the literal source text in the fixed instruction template, and places
the assistant-turn generation-start marker as the final template token of
the output. -/
theorem build_translation_prompt_spec (fl tl : Language) (x : String) :
    (∃ a b, build_translation_prompt fl tl x = a ++ (fl.display_name ++ b)) ∧
    (∃ a b, build_translation_prompt fl tl x = a ++ (tl.display_name ++ b)) ∧
    (∃ a b, build_translation_prompt fl tl x = a ++ (x ++ b)) ∧
    (∃ p, build_translation_prompt fl tl x = p ++ "<|im_start|>assistant\n") := by
  unfold build_translation_prompt
  refine
    ⟨⟨"<|im_start|>system\nYou are a professional translator.<|im_end|>\n<|im_start|>user\nTranslate the following text from ",
      " to " ++ tl.display_name ++
        ". Provide only the translation without any explanation.\n\n" ++ x ++
        "<|im_end|>\n<|im_start|>assistant\n", ?_⟩,
    ⟨"<|im_start|>system\nYou are a professional translator.<|im_end|>\n<|im_start|>user\nTranslate the following text from " ++
        fl.display_name ++ " to ",
      ". Provide only the translation without any explanation.\n\n" ++ x ++
        "<|im_end|>\n<|im_start|>assistant\n", ?_⟩,
    ⟨"<|im_start|>system\nYou are a professional translator.<|im_end|>\n<|im_start|>user\nTranslate the following text from " ++
        fl.display_name ++ " to " ++ tl.display_name ++
        ". Provide only the translation without any explanation.\n\n",
      "<|im_end|>\n<|im_start|>assistant\n", ?_⟩,
    ⟨"<|im_start|>system\nYou are a professional translator.<|im_end|>\n<|im_start|>user\nTranslate the following text from " ++
        fl.display_name ++ " to " ++ tl.display_name ++
        ". Provide only the translation without any explanation.\n\n" ++ x ++
        "<|im_end|>\n", ?_⟩⟩
  · simp [String.append_assoc]
  · simp [String.append_assoc]
  · simp [String.append_assoc]
  · have hD : ("<|im_end|>\n<|im_start|>assistant\n" : String) =
      "<|im_end|>\n" ++ "<|im_start|>assistant\n" := by decide
    rw [hD]
    simp [String.append_assoc]

/-- Counterexample to C8 as stated: the KV cache is not destroyed when the
call returns — it survives inside the engine's model.  In this concrete
run the cleared cache holds 0 processed invocations, yet after the call
returns the engine still holds the finished request's cache (3
invocations: prefill plus two decode steps). -/
theorem kv_cache_retained_after_return :
    (translateRun (streamModel cxStream) cxTok [9] 0
        Language.En Language.Ko "x").cacheFinal ≠
      (streamModel cxStream).clearKvCache 0 := by
  decide

/-- Claim C8 (amended): the KV cache is cleared to empty at the start of
every call, before any model invocation (the trace begins with the lock
acquisition immediately followed by the cache clear), and because clearing
is a constant function, everything a caller can observe — outcome,
generated tokens and event trace — is independent of whatever cache
contents earlier requests left behind: a later request can never observe
an earlier request's cache, even though the cache object itself is
retained in the engine between calls. -/
theorem kv_cache_cleared_before_use (M : ModelOracle C) (T : TokenizerOracle)
    (eos : List Nat) (c₁ c₂ : C) (fl tl : Language) (x : String)
    (hclear : ∀ a b : C, M.clearKvCache a = M.clearKvCache b) :
    ((translateRun M T eos c₁ fl tl x).outcome = (translateRun M T eos c₂ fl tl x).outcome ∧
     (translateRun M T eos c₁ fl tl x).generated =
       (translateRun M T eos c₂ fl tl x).generated ∧
     (translateRun M T eos c₁ fl tl x).events = (translateRun M T eos c₂ fl tl x).events) ∧
    (∀ ids, T.encode (build_translation_prompt fl tl x) false = .ok ids →
      ∃ rest, (translateRun M T eos c₁ fl tl x).events =
        Event.lockAcquire :: Event.clearCache :: rest) := by
  obtain ⟨h1, h2, h3, h4⟩ := translateRun_cache_indep M T eos c₁ c₂ fl tl x hclear
  refine ⟨⟨h1, h2, h4⟩, ?_⟩
  intro ids henc
  obtain ⟨fwds, hev⟩ := translateRun_events_shape M T eos c₁ fl tl x ids henc
  exact ⟨_, hev⟩

/-- Witness for the amended C8: two calls starting from different leftover
caches (5 and 0 processed positions) observe exactly the same everything,
and the trace clears the cache right after taking the lock. -/
theorem kv_cache_cleared_before_use_witness :
    ((translateRun (streamModel cxStream) cxTok [9] 5 Language.En Language.Ko "x").outcome =
       (translateRun (streamModel cxStream) cxTok [9] 0 Language.En Language.Ko "x").outcome ∧
     (translateRun (streamModel cxStream) cxTok [9] 5 Language.En Language.Ko "x").generated =
       (translateRun (streamModel cxStream) cxTok [9] 0 Language.En Language.Ko "x").generated ∧
     (translateRun (streamModel cxStream) cxTok [9] 5 Language.En Language.Ko "x").events =
       (translateRun (streamModel cxStream) cxTok [9] 0 Language.En Language.Ko "x").events) ∧
    (∀ ids, cxTok.encode (build_translation_prompt Language.En Language.Ko "x") false =
        .ok ids →
      ∃ rest, (translateRun (streamModel cxStream) cxTok [9] 5
          Language.En Language.Ko "x").events =
        Event.lockAcquire :: Event.clearCache :: rest) :=
  kv_cache_cleared_before_use (streamModel cxStream) cxTok [9] 5 0
    Language.En Language.Ko "x" (fun _ _ => rfl)

/-- Claim C9: every `translate` call that reaches the model acquires the
engine lock exactly once before any model invocation and releases it
exactly once after all of them, on every exit path (a tokenization failure
returns before locking, with an empty trace); and in any mutex-legal
interleaving of such call traces, the model invocations of two different
calls never interleave — at most one call is inside its prefill/decode
section at any time. -/
theorem translate_serialized_exclusive :
    (∀ (C : Type) (M : ModelOracle C) (T : TokenizerOracle) (eos : List Nat) (c₀ : C)
        (fl tl : Language) (x : String),
      (∀ e, T.encode (build_translation_prompt fl tl x) false = .error e →
        (translateRun M T eos c₀ fl tl x).events = []) ∧
      (∀ ids, T.encode (build_translation_prompt fl tl x) false = .ok ids →
        CallShape (translateRun M T eos c₀ fl tl x).events)) ∧
    (∀ (sched : List (Nat × Event)) (h : Option Nat),
      mutexLegalFrom h sched → TracesWF h sched →
      ∀ (k₁ k₂ k₃ i j n₁ p₁ n₂ p₂ n₃ p₃ : Nat),
        k₁ < k₂ → k₂ < k₃ →
        sched[k₁]? = some (i, Event.modelForward n₁ p₁) →
        sched[k₂]? = some (j, Event.modelForward n₂ p₂) →
        sched[k₃]? = some (i, Event.modelForward n₃ p₃) → i = j) := by
  constructor
  · intro C M T eos c₀ fl tl x
    constructor
    · intro e he
      simp only [translateRun, he]
    · intro ids henc
      obtain ⟨fwds, hev⟩ := translateRun_events_shape M T eos c₀ fl tl x ids henc
      refine ⟨Event.clearCache :: fwds.map (fun p => Event.modelForward p.1 p.2), ?_, ?_⟩
      · rw [hev]
        rfl
      · intro ev hmem
        rcases List.mem_cons.mp hmem with h | h
        · rw [h]
          exact ⟨fun hc => (nomatch hc), fun hc => (nomatch hc)⟩
        · obtain ⟨p, _, hp⟩ := List.mem_map.mp h
          rw [← hp]
          exact ⟨fun hc => (nomatch hc), fun hc => (nomatch hc)⟩
  · exact mutex_serializes

/-- Schedule of one whole call used by the C9 witness. -/
def sched0 : List (Nat × Event) :=
  [(0, Event.lockAcquire), (0, Event.clearCache), (0, Event.modelForward 2 0),
   (0, Event.modelForward 1 2), (0, Event.modelForward 1 3), (0, Event.lockRelease)]

/-- Witness for C9: a concrete successful call has the single-lock trace
shape, and on a concrete legal schedule the serialization conclusion
holds. -/
theorem translate_serialized_exclusive_witness :
    CallShape (translateRun (streamModel cxStream) cxTok [9] 0
      Language.En Language.Ko "x").events ∧ (0 : Nat) = 0 := by
  have hwf0 : TracesWF none sched0 := by
    intro i
    refine ⟨fun hc => (nomatch hc), fun _ => ?_⟩
    by_cases hi : i = 0
    · subst hi
      right
      refine ⟨[Event.clearCache, Event.modelForward 2 0, Event.modelForward 1 2,
        Event.modelForward 1 3], rfl, by unfold noLockEvents; decide⟩
    · left
      have h0 : ¬ (0 = i) := fun h => hi h.symm
      simp [sched0, projOf, h0]
  constructor
  · exact (translate_serialized_exclusive.1 Nat (streamModel cxStream) cxTok [9] 0
      Language.En Language.Ko "x").2 [5, 6] rfl
  · exact translate_serialized_exclusive.2 sched0 none (by simp [sched0, mutexLegalFrom])
      hwf0 2 3 4 0 0 2 0 1 2 1 3 (by decide) (by decide) rfl rfl rfl

/-- Claim C10: when the token predicted from the prefill pass is already a
stop token, the decode loop performs zero model invocations, zero tokens
are generated, and `translate` returns Ok with the empty string (the
detokenizer maps the empty token list to the empty string, as the real
tokenizer does). -/
theorem translate_immediate_stop_empty (M : ModelOracle C) (T : TokenizerOracle)
    (eos : List Nat) (c₀ : C) (fl tl : Language) (x : String) (ids : List Nat)
    (logits : List (List Int)) (c₂ : C) (t0 : Nat)
    (henc : T.encode (build_translation_prompt fl tl x) false = .ok ids)
    (hpre : M.forward ids 0 (M.clearKvCache c₀) = .ok (logits, c₂))
    (hs : sample_token logits = .ok t0)
    (hstop : t0 ∈ eos)
    (hdec : T.decode [] true = .ok "") :
    translateRun M T eos c₀ fl tl x =
      ⟨.ok "", [], [], [Event.lockAcquire, Event.clearCache,
        Event.modelForward ids.length 0, Event.lockRelease], c₂⟩ := by
  have hloop : decodeLoop M eos MAX_NEW_TOKENS t0 ids.length c₂ =
      ⟨[], [], [], c₂, none⟩ := by
    rw [show MAX_NEW_TOKENS = 127 + 1 from rfl]
    simp [decodeLoop, hstop]
  simp only [translateRun, henc, runLocked, hpre, hs, hloop, finishRun, hdec]
  rfl

/-- Witness for C10: a model whose prefill prediction is the stop token 7
makes translate return Ok "" after exactly one (prefill) invocation. -/
theorem translate_immediate_stop_empty_witness :
    translateRun (streamModel stopStream) stopTok [7] 0 Language.En Language.Ko "x" =
      ⟨.ok "", [], [], [Event.lockAcquire, Event.clearCache,
        Event.modelForward 1 0, Event.lockRelease], 1⟩ :=
  translate_immediate_stop_empty (streamModel stopStream) stopTok [7] 0 Language.En
    Language.Ko "x" [4] [oneHot 7] 1 7 rfl rfl (sample_token_oneHot 7) (by decide) rfl

end LangTrans
